import Mathlib

/-!
Verification of the reference-normalization core of the `naming` repository
(`reference/remote.go`).  Strings are embedded as `List Char`; Go's
`strings.IndexRune`, slicing, `ContainsAny`, `ContainsRune`, `HasPrefix`,
`TrimPrefix` and `ToLower` (ASCII range) become the corresponding list
operations.  Fallible Go functions returning `(T, error)` become
`Except RefError T`.

The base `reference` package (`ParseNamed`, `WithName`, the name/tag grammar)
and the `digest` package are collaborators of `remote.go` that are not part of
the sources verified here; where a claim needs them they are modelled from the
specification and marked as such.
-/

namespace Naming

/-- Error kinds of the validating constructors, mirroring the error values
produced in `remote.go` and, for the modelled collaborators, the error kinds
named by the specification (§7). -/
inductive RefError where
  /-- "invalid reference format: repository name must be lowercase" (`normalize`). -/
  | notLowercase : RefError
  /-- "Invalid repository name (%s), cannot specify 64-byte hexadecimal strings"
      (`validateName`); carries the offending name. -/
  | ambiguousHex (name : List Char) : RefError
  /-- "Error parsing reference: %q is not a valid repository/tag"
      (`ParseRemoteNamed`); carries the whole input string. -/
  | invalidFormat (input : List Char) : RefError
  /-- Grammar violation in the base name (modelled Grammar Validator). -/
  | invalidName (name : List Char) : RefError
  /-- Tag fails the tag grammar (modelled collaborator). -/
  | invalidTag (tag : List Char) : RefError
  /-- Digest fails the digest syntax (modelled Digest Collaborator). -/
  | invalidDigest (d : List Char) : RefError
deriving DecidableEq

instance instDecEqExcept {ε α : Type} [DecidableEq ε] [DecidableEq α] :
    DecidableEq (Except ε α) := fun a b =>
  match a, b with
  | Except.ok a, Except.ok b =>
    if h : a = b then isTrue (by rw [h])
    else isFalse (fun he => by cases he; exact h rfl)
  | Except.error a, Except.error b =>
    if h : a = b then isTrue (by rw [h])
    else isFalse (fun he => by cases he; exact h rfl)
  | Except.ok _, Except.error _ => isFalse (fun he => by cases he)
  | Except.error _, Except.ok _ => isFalse (fun he => by cases he)

/-- `DefaultHostname = "docker.io"`. -/
def DefaultHostname : List Char := "docker.io".toList

/-- `LegacyDefaultHostname = "index.docker.io"`. -/
def LegacyDefaultHostname : List Char := "index.docker.io".toList

/-- `DefaultRepoPrefixL` embeds the constant `DefaultRepoPrefix = "library/"`. -/
def DefaultRepoPrefixL : List Char := "library/".toList

/-- `DefaultTag = "latest"`. -/
def DefaultTag : List Char := "latest".toList

/-- ASCII lowering of one character, the ASCII case of Go's `unicode.ToLower`
as used by `strings.ToLower` (all inputs of interest are ASCII). -/
def toLowerChar (c : Char) : Char :=
  if 65 ≤ c.toNat ∧ c.toNat ≤ 90 then Char.ofNat (c.toNat + 32) else c

/-- `strings.ToLower` on the embedded string. -/
def toLowerL (s : List Char) : List Char := s.map toLowerChar

/-- `strings.ContainsAny(s, chars)`. -/
def containsAny (s : List Char) (chars : List Char) : Bool :=
  s.any (fun c => chars.contains c)

/-- `splitHostname(name)` from `remote.go` lines 169–183.  `before` plays the
role of `name[:i]` for `i := strings.IndexRune(name, '/')`; `i == -1` is
`name.contains '/' = false`. -/
def splitHostname (name : List Char) : List Char × List Char :=
  let before := name.takeWhile (fun c => c != '/')
  let p :=
    if name.contains '/' = false ∨
        (containsAny before ['.', ':'] = false ∧ before ≠ "localhost".toList) then
      (DefaultHostname, name)
    else
      (before, (name.dropWhile (fun c => c != '/')).tail)
  let hostname := if p.1 = LegacyDefaultHostname then DefaultHostname else p.1
  let remoteName :=
    if hostname = DefaultHostname ∧ p.2.contains '/' = false then
      DefaultRepoPrefixL ++ p.2
    else p.2
  (hostname, remoteName)

/-- `normalize(name)` from `remote.go` lines 187–199: reject a non-lowercase
remote name; on the default host strip a leading `library/`; on any other host
return the input unchanged. -/
def normalize (name : List Char) : Except RefError (List Char) :=
  let p := splitHostname name
  if toLowerL p.2 ≠ p.2 then
    Except.error RefError.notLowercase
  else if p.1 = DefaultHostname then
    if DefaultRepoPrefixL.isPrefixOf p.2 then
      Except.ok (p.2.drop DefaultRepoPrefixL.length)
    else
      Except.ok p.2
  else
    Except.ok name

/-- Hexadecimal digit (lowercase), via code points. -/
def isHexChar (c : Char) : Bool :=
  (48 ≤ c.toNat && c.toNat ≤ 57) || (97 ≤ c.toNat && c.toNat ≤ 102)

/-- Modelled from the spec: `digest.ValidateHex` (the Digest Collaborator's
hex-only validation, not part of the verified sources) succeeds exactly on
64-character lowercase-hexadecimal strings. -/
def validateHex (s : List Char) : Bool :=
  s.length == 64 && s.all isHexChar

/-- `validateName(name)` from `remote.go` lines 201–206: a name that is a valid
bare hex string is rejected. -/
def validateName (name : List Char) : Except RefError Unit :=
  if validateHex name then Except.error (RefError.ambiguousHex name)
  else Except.ok ()

/-- `strings.TrimPrefix(r, DefaultRepoPrefix)`: the minimal form of a remote
name, with the default namespace stripped when present. -/
def stripLibrary (r : List Char) : List Char :=
  if DefaultRepoPrefixL.isPrefixOf r then r.drop DefaultRepoPrefixL.length else r

/-- Spec §4.2 `splitHostname`, transcribed from the specification's words:
the substring before the first `/` is an explicit hostname only if it contains
`.` or `:` or is exactly `localhost`; a hostname equal to the legacy alias is
replaced by the canonical default; on the canonical default hostname a
repository path with no further `/` receives the default namespace. -/
def splitHostnameSpec (name : List Char) : List Char × List Char :=
  let comp := name.takeWhile (fun c => c != '/')
  let explicitHost :=
    name.contains '/' = true ∧
      (containsAny comp ['.', ':'] = true ∨ comp = "localhost".toList)
  let p :=
    if explicitHost then (comp, (name.dropWhile (fun c => c != '/')).tail)
    else (DefaultHostname, name)
  let hostname := if p.1 = LegacyDefaultHostname then DefaultHostname else p.1
  let remoteName :=
    if hostname = DefaultHostname ∧ p.2.contains '/' = false then
      DefaultRepoPrefixL ++ p.2
    else p.2
  (hostname, remoteName)

/-- Spec §4.2 `normalize`, transcribed from the specification's words:
run `splitHostname`; reject a repository path that is not already lowercase;
on the canonical default hostname strip a leading default namespace and
otherwise return the repository path; on any other hostname return the
original input unchanged. -/
def normalizeSpec (name : List Char) : Except RefError (List Char) :=
  let p := splitHostnameSpec name
  if toLowerL p.2 ≠ p.2 then
    Except.error RefError.notLowercase
  else if p.1 = DefaultHostname then
    if DefaultRepoPrefixL.isPrefixOf p.2 then
      Except.ok (p.2.drop DefaultRepoPrefixL.length)
    else
      Except.ok p.2
  else
    Except.ok name

/-- Decimal digit, via code points. -/
def isDigitChar (c : Char) : Bool := 48 ≤ c.toNat && c.toNat ≤ 57

/-- Lowercase ASCII letter. -/
def isLowerAlphaChar (c : Char) : Bool := 97 ≤ c.toNat && c.toNat ≤ 122

/-- Uppercase ASCII letter. -/
def isUpperAlphaChar (c : Char) : Bool := 65 ≤ c.toNat && c.toNat ≤ 90

/-- `[a-z0-9]`, the alphabet of path-segment runs. -/
def isAlnumLower (c : Char) : Bool := isLowerAlphaChar c || isDigitChar c

/-- Adjacent-character rule of the segment grammar
`[a-z0-9]+(([._]|__|[-]+)[a-z0-9]+)*`: two separators may only be adjacent as
`--` or `__`; everything else must touch an alphanumeric. -/
def allowedNamePair (x y : Char) : Bool :=
  if isAlnumLower x && isAlnumLower y then true
  else if isAlnumLower x then y == '.' || y == '_' || y == '-'
  else if isAlnumLower y then x == '.' || x == '_' || x == '-'
  else (x == '-' && y == '-') || (x == '_' && y == '_')

/-- All adjacent pairs satisfy `allowedNamePair`. -/
def validNamePairs : List Char → Bool
  | x :: y :: rest => allowedNamePair x y && validNamePairs (y :: rest)
  | _ => true

/-- The segment grammar allows `__` but not three consecutive underscores. -/
def noTripleUnderscore : List Char → Bool
  | '_' :: '_' :: '_' :: _ => false
  | _ :: rest => noTripleUnderscore rest
  | [] => true

/-- Modelled from the spec (§4.1, §6): one path segment,
`[a-z0-9]+(([._]|__|[-]+)[a-z0-9]+)*`, stated as: nonempty, first and last
characters alphanumeric, all characters in the segment alphabet, no illegal
adjacent separators and no triple underscore. -/
def validSegment (s : List Char) : Bool :=
  match s with
  | [] => false
  | c :: _ =>
    isAlnumLower c &&
    (match s.getLast? with | some d => isAlnumLower d | none => false) &&
    s.all (fun c => isAlnumLower c || c == '.' || c == '_' || c == '-') &&
    validNamePairs s && noTripleUnderscore s

/-- The Normalizer's hostname test: contains `.` or `:`, or is `localhost`. -/
def hostLike (comp : List Char) : Bool :=
  containsAny comp ['.', ':'] || comp == "localhost".toList

/-- Adjacent-character rule for hostnames: separators `.` and `-` must not
touch each other (DNS labels begin and end alphanumeric). -/
def validHostPair (x y : Char) : Bool :=
  !((x == '.' || x == '-') && (y == '.' || y == '-'))

/-- All adjacent pairs satisfy `validHostPair`. -/
def validHostPairs : List Char → Bool
  | x :: y :: rest => validHostPair x y && validHostPairs (y :: rest)
  | _ => true

/-- Modelled from the spec: a registry hostname component — DNS-style labels
(alphanumeric of either case, separated by single `.` or `-`) with an optional
`:port`, beginning and ending alphanumeric. -/
def validHostComp (h : List Char) : Bool :=
  match h with
  | [] => false
  | c :: _ =>
    (isAlnumLower c || isUpperAlphaChar c) &&
    (match h.getLast? with
     | some d => isAlnumLower d || isUpperAlphaChar d
     | none => false) &&
    h.all (fun c => isAlnumLower c || isUpperAlphaChar c || c == '.' || c == '-' || c == ':') &&
    validHostPairs h

/-- Modelled from the spec: the base name grammar of the Grammar Validator
(`reference.WithName`, absent from the verified sources): one or more
`/`-joined path segments, where the first component may instead be a registry
hostname; the portion before the first `/` must not exceed 255 characters
(§6 namespace length). -/
def validBaseName (nm : List Char) : Bool :=
  (nm.takeWhile (fun c => c != '/')).length ≤ 255 &&
  match nm.splitOn '/' with
  | [] => false
  | first :: rest =>
    (validSegment first || validHostComp first) && rest.all validSegment

/-- Word character `[A-Za-z0-9_]`, the first character of a tag. -/
def isTagFirstChar (c : Char) : Bool :=
  isAlnumLower c || isUpperAlphaChar c || c == '_'

/-- Tag-body character `[A-Za-z0-9._-]`. -/
def isTagChar (c : Char) : Bool := isTagFirstChar c || c == '.' || c == '-'

/-- Modelled from the spec (§4.1): the tag grammar
`[A-Za-z0-9_][A-Za-z0-9._-]*`, length-bounded (128). -/
def validTag (t : List Char) : Bool :=
  match t with
  | [] => false
  | c :: rest => isTagFirstChar c && rest.all isTagChar && t.length ≤ 128

/-- Modelled from the spec: the Digest Collaborator's digest syntax
`algorithm:hex`, with the default algorithm `sha256` and its 64-character
lowercase hex. -/
def validDigest (d : List Char) : Bool :=
  d.contains ':' && d.takeWhile (fun c => c != ':') == "sha256".toList &&
    validateHex ((d.dropWhile (fun c => c != ':')).tail)

/-- `WithRemoteName(name)` from `remote.go` lines 70–83: `normalize`, then
`validateName`, then the base `WithName` (grammar validation, modelled);
returns the stored (normalized) name that `Name()` will report. -/
def withRemoteName (name : List Char) : Except RefError (List Char) :=
  match normalize name with
  | Except.error e => Except.error e
  | Except.ok n =>
    match validateName n with
    | Except.error e => Except.error e
    | Except.ok _ =>
      if validBaseName n then Except.ok n else Except.error (RefError.invalidName n)

/-- `FullName()` of a reference with stored name `n`:
`hostname + "/" + remoteName`, both recomputed through `splitHostname`. -/
def fullNameOf (n : List Char) : List Char :=
  (splitHostname n).1 ++ '/' :: (splitHostname n).2

/-- `Hostname()` of a reference with stored name `n`. -/
def hostnameOf (n : List Char) : List Char := (splitHostname n).1

/-- `RemoteName()` of a reference with stored name `n`. -/
def remoteNameOf (n : List Char) : List Char := (splitHostname n).2

/-- The base Reference value family (spec §3, §9: a closed sum with variants
NameOnly / Tagged / Canonical), produced by the base `ParseNamed`. -/
inductive NamedRef where
  | nameOnly (name : List Char) : NamedRef
  | tagged (name tag : List Char) : NamedRef
  | canonical (name d : List Char) : NamedRef
deriving DecidableEq

/-- `Name()` of a base reference. -/
def NamedRef.name : NamedRef → List Char
  | NamedRef.nameOnly n => n
  | NamedRef.tagged n _ => n
  | NamedRef.canonical n _ => n

/-- The remote reference family of `remote.go` (`remoteNamedRef`,
`remoteTaggedRef`, `remoteCanonicalRef`), each carrying the stored normalized
name and, per variant, a tag or digest. -/
inductive RemoteRef where
  | named (storedName : List Char) : RemoteRef
  | tagged (storedName tag : List Char) : RemoteRef
  | canonical (storedName d : List Char) : RemoteRef
deriving DecidableEq

/-- The stored name (`Name()`) of a remote reference. -/
def RemoteRef.name : RemoteRef → List Char
  | RemoteRef.named n => n
  | RemoteRef.tagged n _ => n
  | RemoteRef.canonical n _ => n

/-- Whether the value implements the `RemoteTagged` capability
(the Go type assertion `ref.(RemoteTagged)` succeeds). -/
def RemoteRef.isTagged : RemoteRef → Bool
  | RemoteRef.tagged _ _ => true
  | _ => false

/-- `Digest()` when the value implements `RemoteCanonical`, else none. -/
def RemoteRef.digestOf : RemoteRef → Option (List Char)
  | RemoteRef.canonical _ d => some d
  | _ => none

/-- `WithRemoteTag` from `remote.go` lines 87–94; the underlying base
`WithTag` (tag grammar validation) is modelled from the spec (§4.3). -/
def withRemoteTag (n t : List Char) : Except RefError RemoteRef :=
  if validTag t then Except.ok (RemoteRef.tagged n t)
  else Except.error (RefError.invalidTag t)

/-- `WithRemoteDigest` from `remote.go` lines 98–104; the underlying base
`WithDigest` (digest syntax validation) is modelled from the spec (§4.3). -/
def withRemoteDigest (n d : List Char) : Except RefError RemoteRef :=
  if validDigest d then Except.ok (RemoteRef.canonical n d)
  else Except.error (RefError.invalidDigest d)

/-- Split an optional `@digest` suffix at the first `@`. -/
def splitDigestSuffix (s : List Char) : List Char × Option (List Char) :=
  if s.contains '@' then
    (s.takeWhile (fun c => c != '@'), some ((s.dropWhile (fun c => c != '@')).tail))
  else (s, none)

/-- Split an optional `:tag` suffix: the part after the last `:` is a tag
when it contains no `/` (so a port in the hostname is not a tag). -/
def splitTagSuffix (s : List Char) : List Char × Option (List Char) :=
  let afterRev := s.reverse.takeWhile (fun c => c != ':')
  if s.contains ':' && !afterRev.contains '/' then
    (((s.reverse.dropWhile (fun c => c != ':')).tail).reverse, some afterRev.reverse)
  else (s, none)

/-- Modelled from the spec (§4.5): the base `ParseNamed` (absent from the
verified sources) splits `s` into a name portion and optional `@digest` and
`:tag` suffixes, validates the name portion against the base grammar, and
returns Canonical if a digest was present (digest wins, the tag is discarded),
else Tagged if a tag was present, else NameOnly. -/
def parseNamed (s : List Char) : Except RefError NamedRef :=
  let pd := splitDigestSuffix s
  let pt := splitTagSuffix pd.1
  if validBaseName pt.1 = false then Except.error (RefError.invalidName pt.1)
  else
    match pd.2 with
    | some d =>
      if validDigest d then Except.ok (NamedRef.canonical pt.1 d)
      else Except.error (RefError.invalidDigest d)
    | none =>
      match pt.2 with
      | some t =>
        if validTag t then Except.ok (NamedRef.tagged pt.1 t)
        else Except.error (RefError.invalidTag t)
      | none => Except.ok (NamedRef.nameOnly pt.1)

/-- `ParseRemoteNamed(s)` from `remote.go` lines 50–66: parse the base
reference (any failure is replaced by the generic "not a valid repository/tag"
error carrying the input), normalize the name through `WithRemoteName`, then
re-attach the digest (Canonical wins) or the tag. -/
def parseRemoteNamed (s : List Char) : Except RefError RemoteRef :=
  match parseNamed s with
  | Except.error _ => Except.error (RefError.invalidFormat s)
  | Except.ok named =>
    match withRemoteName named.name with
    | Except.error e => Except.error e
    | Except.ok n =>
      match named with
      | NamedRef.canonical _ d => withRemoteDigest n d
      | NamedRef.tagged _ t => withRemoteTag n t
      | NamedRef.nameOnly _ => Except.ok (RemoteRef.named n)

/-! ### Basic list and character lemmas -/

theorem contains_iff {l : List Char} {c : Char} : l.contains c = true ↔ c ∈ l :=
  List.elem_iff

theorem contains_false_iff {l : List Char} {c : Char} : l.contains c = false ↔ c ∉ l := by
  rw [← contains_iff]
  cases l.contains c <;> simp

theorem takeWhile_ne_append {c : Char} {h r : List Char} (hh : c ∉ h) :
    (h ++ c :: r).takeWhile (fun x => x != c) = h := by
  rw [List.takeWhile_append_of_pos]
  · rw [List.takeWhile_cons_of_neg (by simp)]
    simp
  · intro a ha
    simp only [bne_iff_ne, ne_eq]
    exact fun e => hh (e ▸ ha)

theorem dropWhile_ne_append {c : Char} {h r : List Char} (hh : c ∉ h) :
    (h ++ c :: r).dropWhile (fun x => x != c) = c :: r := by
  rw [List.dropWhile_append_of_pos, List.dropWhile_cons_of_neg (by simp)]
  intro a ha
  simp only [bne_iff_ne, ne_eq]
  exact fun e => hh (e ▸ ha)

theorem contains_append_pivot (c : Char) (h r : List Char) :
    (h ++ c :: r).contains c = true :=
  contains_iff.mpr (by simp)

theorem takeWhile_ne_not_mem (c : Char) (n : List Char) :
    c ∉ n.takeWhile (fun x => x != c) := by
  intro hmem
  have := List.mem_takeWhile_imp hmem
  simp at this

theorem splitSlash_reconstruct {c : Char} {n : List Char} (h : n.contains c = true) :
    n = n.takeWhile (fun x => x != c) ++ c :: (n.dropWhile (fun x => x != c)).tail := by
  induction n with
  | nil => simp [List.contains] at h
  | cons a t ih =>
    by_cases hac : a = c
    · subst hac
      rw [List.takeWhile_cons_of_neg (by simp), List.dropWhile_cons_of_neg (by simp)]
      simp
    · have hpa : (a != c) = true := by simp [hac]
      rw [List.takeWhile_cons_of_pos (p := fun x => x != c) hpa,
        List.dropWhile_cons_of_pos (p := fun x => x != c) hpa]
      have ht : t.contains c = true := by
        rcases contains_iff.mp h with hmem
        rcases List.mem_cons.mp hmem with he | hm
        · exact absurd he.symm hac
        · exact contains_iff.mpr hm
      simpa using ih ht

theorem toLowerL_append (a b : List Char) :
    toLowerL (a ++ b) = toLowerL a ++ toLowerL b := by
  simp [toLowerL]

theorem toLowerL_eq_self_iff {l : List Char} :
    toLowerL l = l ↔ ∀ c ∈ l, toLowerChar c = c := by
  unfold toLowerL
  induction l with
  | nil => simp
  | cons a t ih => simp [ih, and_comm]

theorem toLowerL_drop {l : List Char} (n : Nat) (h : toLowerL l = l) :
    toLowerL (l.drop n) = l.drop n := by
  rw [toLowerL_eq_self_iff] at h ⊢
  intro c hc
  exact h c (List.drop_subset n l hc)

theorem isHexChar_facts {c : Char} (h : isHexChar c = true) :
    toLowerChar c = c ∧ c ≠ '/' ∧ c ≠ '.' ∧ c ≠ ':' ∧ c ≠ '@' := by
  simp only [isHexChar, Bool.or_eq_true, Bool.and_eq_true, decide_eq_true_eq] at h
  refine ⟨?_, ?_, ?_, ?_, ?_⟩
  · unfold toLowerChar
    rw [if_neg]
    omega
  all_goals
    intro he
    subst he
    exact absurd h (by decide)

/-! ### Computation lemmas for splitHostname and normalize -/

theorem dh_ne_legacy : DefaultHostname ≠ LegacyDefaultHostname := by decide

theorem contains_append_left {l₁ l₂ : List Char} {c : Char} (h : c ∈ l₁) :
    (l₁ ++ l₂).contains c = true :=
  contains_iff.mpr (List.mem_append.mpr (Or.inl h))

theorem splitHostname_no_slash {n : List Char} (h : n.contains '/' = false) :
    splitHostname n = (DefaultHostname, DefaultRepoPrefixL ++ n) := by
  simp only [splitHostname]
  rw [if_pos (Or.inl h)]
  dsimp only
  rw [if_neg dh_ne_legacy, if_pos ⟨rfl, h⟩]

theorem splitHostname_not_hostlike {n : List Char} (h : n.contains '/' = true)
    (h2 : containsAny (n.takeWhile (fun c => c != '/')) ['.', ':'] = false)
    (h3 : n.takeWhile (fun c => c != '/') ≠ "localhost".toList) :
    splitHostname n = (DefaultHostname, n) := by
  have hpre : ¬(DefaultHostname = DefaultHostname ∧ n.contains '/' = false) := by
    rintro ⟨-, hc⟩
    rw [h] at hc
    cases hc
  simp only [splitHostname]
  rw [if_pos (Or.inr ⟨h2, h3⟩)]
  dsimp only
  rw [if_neg dh_ne_legacy, if_neg hpre]

theorem splitHostname_explicit {h r : List Char} (h1 : ('/' : Char) ∉ h)
    (h2 : containsAny h ['.', ':'] = true ∨ h = "localhost".toList) :
    splitHostname (h ++ '/' :: r) =
      (if h = LegacyDefaultHostname then DefaultHostname else h,
       if (if h = LegacyDefaultHostname then DefaultHostname else h) = DefaultHostname
           ∧ r.contains '/' = false
         then DefaultRepoPrefixL ++ r else r) := by
  have ht := takeWhile_ne_append (c := '/') (h := h) (r := r) h1
  have hd := dropWhile_ne_append (c := '/') (h := h) (r := r) h1
  have hc := contains_append_pivot '/' h r
  have hC : ¬((h ++ '/' :: r).contains '/' = false ∨
      (containsAny ((h ++ '/' :: r).takeWhile (fun c => c != '/')) ['.', ':'] = false ∧
        (h ++ '/' :: r).takeWhile (fun c => c != '/') ≠ "localhost".toList)) := by
    rintro (hfalse | ⟨ha, hl⟩)
    · rw [hc] at hfalse
      cases hfalse
    · rw [ht] at ha hl
      rcases h2 with h2a | h2l
      · rw [h2a] at ha
        cases ha
      · exact hl h2l
  simp only [splitHostname]
  rw [if_neg hC]
  dsimp only
  rw [hd, ht]
  simp only [List.tail_cons]

theorem splitHostname_hostlike {h r : List Char} (h1 : ('/' : Char) ∉ h)
    (h2 : containsAny h ['.', ':'] = true ∨ h = "localhost".toList)
    (h3 : h ≠ LegacyDefaultHostname)
    (h4 : h = DefaultHostname → r.contains '/' = true) :
    splitHostname (h ++ '/' :: r) = (h, r) := by
  rw [splitHostname_explicit h1 h2, if_neg h3]
  by_cases hdh : h = DefaultHostname
  · rw [if_neg]
    rintro ⟨-, hrc⟩
    rw [h4 hdh] at hrc
    exact absurd hrc (by simp)
  · rw [if_neg]
    rintro ⟨hdh', -⟩
    exact hdh hdh'

theorem splitHostname_legacy_host (r : List Char) :
    splitHostname (LegacyDefaultHostname ++ '/' :: r) =
      (DefaultHostname,
       if r.contains '/' = false then DefaultRepoPrefixL ++ r else r) := by
  rw [splitHostname_explicit (by decide) (Or.inl (by decide)), if_pos rfl]
  simp

theorem splitHostname_default_host (r : List Char) :
    splitHostname (DefaultHostname ++ '/' :: r) =
      (DefaultHostname,
       if r.contains '/' = false then DefaultRepoPrefixL ++ r else r) := by
  rw [splitHostname_explicit (by decide) (Or.inl (by decide)), if_neg dh_ne_legacy]
  simp

theorem lib_lower : toLowerL DefaultRepoPrefixL = DefaultRepoPrefixL := by decide

theorem lib_isPrefixOf_append (n : List Char) :
    DefaultRepoPrefixL.isPrefixOf (DefaultRepoPrefixL ++ n) = true :=
  List.isPrefixOf_iff_prefix.mpr (List.prefix_append _ _)

theorem normalize_no_slash {n : List Char} (h1 : n.contains '/' = false)
    (h2 : toLowerL n = n) : normalize n = Except.ok n := by
  have hlow : toLowerL (DefaultRepoPrefixL ++ n) = DefaultRepoPrefixL ++ n := by
    rw [toLowerL_append, lib_lower, h2]
  simp only [normalize]
  rw [splitHostname_no_slash h1]
  dsimp only
  rw [if_neg (fun hne => hne hlow), if_pos rfl, if_pos (lib_isPrefixOf_append n),
    List.drop_left]

theorem stripLibrary_append (n : List Char) :
    stripLibrary (DefaultRepoPrefixL ++ n) = n := by
  unfold stripLibrary
  rw [if_pos (lib_isPrefixOf_append n), List.drop_left]

theorem normalize_default_fq {R : List Char} (h1 : R.contains '/' = true)
    (h2 : toLowerL R = R) :
    normalize (DefaultHostname ++ '/' :: R) = Except.ok (stripLibrary R) := by
  have hpre : ¬(R.contains '/' = false) := by
    rw [h1]
    simp
  simp only [normalize]
  rw [splitHostname_default_host R, if_neg hpre]
  dsimp only
  rw [if_neg (fun hne => hne h2), if_pos rfl]
  unfold stripLibrary
  by_cases hp : DefaultRepoPrefixL.isPrefixOf R = true
  · rw [if_pos hp, if_pos hp]
  · rw [if_neg hp, if_neg hp]

theorem normalize_legacy_fq {R : List Char} (h1 : R.contains '/' = true)
    (h2 : toLowerL R = R) :
    normalize (LegacyDefaultHostname ++ '/' :: R) = Except.ok (stripLibrary R) := by
  have hpre : ¬(R.contains '/' = false) := by
    rw [h1]
    simp
  simp only [normalize]
  rw [splitHostname_legacy_host R, if_neg hpre]
  dsimp only
  rw [if_neg (fun hne => hne h2), if_pos rfl]
  unfold stripLibrary
  by_cases hp : DefaultRepoPrefixL.isPrefixOf R = true
  · rw [if_pos hp, if_pos hp]
  · rw [if_neg hp, if_neg hp]

/-! ### Structural properties of splitHostname results -/

theorem splitHostname_props (n : List Char) :
    ('/' : Char) ∉ (splitHostname n).1 ∧
    (containsAny (splitHostname n).1 ['.', ':'] = true ∨
      (splitHostname n).1 = "localhost".toList) ∧
    (splitHostname n).1 ≠ LegacyDefaultHostname ∧
    ((splitHostname n).1 = DefaultHostname → (splitHostname n).2.contains '/' = true) ∧
    ((splitHostname n).1 ≠ DefaultHostname →
      n = (splitHostname n).1 ++ '/' :: (splitHostname n).2) := by
  by_cases hc : n.contains '/' = false
  · rw [splitHostname_no_slash hc]
    dsimp only
    refine ⟨by decide, Or.inl (by decide), dh_ne_legacy, ?_, ?_⟩
    · intro _
      exact contains_append_left (by decide)
    · intro hne
      exact absurd rfl hne
  · have hc' : n.contains '/' = true := by
      cases hcy : n.contains '/'
      · exact absurd hcy hc
      · rfl
    by_cases hhl : containsAny (n.takeWhile (fun c => c != '/')) ['.', ':'] = true ∨
        n.takeWhile (fun c => c != '/') = "localhost".toList
    · have hrec := splitSlash_reconstruct hc'
      have hmem : ('/' : Char) ∉ n.takeWhile (fun c => c != '/') :=
        takeWhile_ne_not_mem _ _
      have hsplit := splitHostname_explicit (r := (n.dropWhile (fun c => c != '/')).tail)
        hmem hhl
      rw [← hrec] at hsplit
      rw [hsplit]
      dsimp only
      by_cases hleg : n.takeWhile (fun c => c != '/') = LegacyDefaultHostname
      · rw [if_pos hleg]
        refine ⟨by decide, Or.inl (by decide), dh_ne_legacy, ?_, ?_⟩
        · intro _
          by_cases hrest : ((n.dropWhile (fun c => c != '/')).tail).contains '/' = false
          · rw [if_pos ⟨rfl, hrest⟩]
            exact contains_append_left (by decide)
          · rw [if_neg (fun hand => hrest hand.2)]
            cases hres : ((n.dropWhile (fun c => c != '/')).tail).contains '/'
            · exact absurd hres hrest
            · rfl
        · intro hne
          exact absurd rfl hne
      · rw [if_neg hleg]
        by_cases hdflt : n.takeWhile (fun c => c != '/') = DefaultHostname
        · refine ⟨hmem, hhl, hleg, ?_, ?_⟩
          · intro _
            by_cases hrest : ((n.dropWhile (fun c => c != '/')).tail).contains '/' = false
            · rw [if_pos ⟨hdflt, hrest⟩]
              exact contains_append_left (by decide)
            · rw [if_neg (fun hand => hrest hand.2)]
              cases hres : ((n.dropWhile (fun c => c != '/')).tail).contains '/'
              · exact absurd hres hrest
              · rfl
          · intro hne
            exact absurd hdflt hne
        · rw [if_neg (fun hand => hdflt hand.1)]
          exact ⟨hmem, hhl, hleg, fun hd => absurd hd hdflt, fun _ => hrec⟩
    · push_neg at hhl
      obtain ⟨hany', hloc⟩ := hhl
      have hany : containsAny (n.takeWhile (fun c => c != '/')) ['.', ':'] = false := by
        cases ha : containsAny (n.takeWhile (fun c => c != '/')) ['.', ':']
        · rfl
        · exact absurd ha hany'
      rw [splitHostname_not_hostlike hc' hany hloc]
      dsimp only
      refine ⟨by decide, Or.inl (by decide), dh_ne_legacy, fun _ => hc',
        fun hne => absurd rfl hne⟩

/-! ### Normalize success analysis and fixed points -/

theorem normalize_ok_cases {n y : List Char} (h : normalize n = Except.ok y) :
    toLowerL (splitHostname n).2 = (splitHostname n).2 ∧
    (((splitHostname n).1 = DefaultHostname ∧ y = stripLibrary (splitHostname n).2) ∨
     ((splitHostname n).1 ≠ DefaultHostname ∧ y = n)) := by
  simp only [normalize] at h
  by_cases hl : toLowerL (splitHostname n).2 ≠ (splitHostname n).2
  · rw [if_pos hl] at h
    cases h
  · push_neg at hl
    rw [if_neg (fun hne => hne hl)] at h
    refine ⟨hl, ?_⟩
    by_cases hd : (splitHostname n).1 = DefaultHostname
    · rw [if_pos hd] at h
      left
      refine ⟨hd, ?_⟩
      unfold stripLibrary
      by_cases hp : DefaultRepoPrefixL.isPrefixOf (splitHostname n).2 = true
      · rw [if_pos hp] at h ⊢
        cases h
        rfl
      · rw [if_neg hp] at h ⊢
        cases h
        rfl
    · rw [if_neg hd] at h
      cases h
      exact Or.inr ⟨hd, rfl⟩

theorem normalize_fixed_of_lower {y : List Char} (hl : toLowerL y = y)
    (hA : DefaultRepoPrefixL.isPrefixOf y = false)
    (hB : y.contains '/' = true →
      (y.takeWhile (fun c => c != '/') ≠ DefaultHostname ∧
       y.takeWhile (fun c => c != '/') ≠ LegacyDefaultHostname)) :
    normalize y = Except.ok y := by
  by_cases hc : y.contains '/' = false
  · exact normalize_no_slash hc hl
  · have hc' : y.contains '/' = true := by
      cases hcy : y.contains '/'
      · exact absurd hcy hc
      · rfl
    obtain ⟨hne_d, hne_l⟩ := hB hc'
    by_cases hhl : containsAny (y.takeWhile (fun c => c != '/')) ['.', ':'] = true ∨
        y.takeWhile (fun c => c != '/') = "localhost".toList
    · have hrec := splitSlash_reconstruct hc'
      have hsplit : splitHostname y =
          (y.takeWhile (fun c => c != '/'), (y.dropWhile (fun c => c != '/')).tail) := by
        have := splitHostname_hostlike (r := (y.dropWhile (fun c => c != '/')).tail)
          (takeWhile_ne_not_mem _ _) hhl hne_l (fun hd => absurd hd hne_d)
        rw [← hrec] at this
        exact this
      have hlow2 : toLowerL ((y.dropWhile (fun c => c != '/')).tail) =
          (y.dropWhile (fun c => c != '/')).tail := by
        rw [toLowerL_eq_self_iff] at hl ⊢
        intro c hcmem
        apply hl
        rw [hrec]
        exact List.mem_append.mpr (Or.inr (List.mem_cons.mpr (Or.inr hcmem)))
      simp only [normalize]
      rw [hsplit]
      dsimp only
      rw [if_neg (fun hne => hne hlow2), if_neg hne_d]
    · push_neg at hhl
      obtain ⟨hany', hloc⟩ := hhl
      have hany : containsAny (y.takeWhile (fun c => c != '/')) ['.', ':'] = false := by
        cases ha : containsAny (y.takeWhile (fun c => c != '/')) ['.', ':']
        · rfl
        · exact absurd ha hany'
      simp only [normalize]
      rw [splitHostname_not_hostlike hc' hany hloc]
      dsimp only
      rw [if_neg (fun hne => hne hl), if_pos rfl,
        if_neg (fun hp => by rw [hA] at hp; cases hp)]

theorem normalize_fullName {n : List Char} (hfix : normalize n = Except.ok n) :
    normalize (fullNameOf n) = Except.ok n := by
  obtain ⟨P1, P2, P3, P4, P5⟩ := splitHostname_props n
  obtain ⟨hlow, hcases⟩ := normalize_ok_cases hfix
  have hsplitF : splitHostname (fullNameOf n) = ((splitHostname n).1, (splitHostname n).2) := by
    unfold fullNameOf
    exact splitHostname_hostlike P1 P2 P3 P4
  simp only [normalize]
  rw [hsplitF]
  dsimp only
  rw [if_neg (fun hne => hne hlow)]
  rcases hcases with ⟨hd, hstrip⟩ | ⟨hnd, -⟩
  · rw [if_pos hd]
    unfold stripLibrary at hstrip
    by_cases hp : DefaultRepoPrefixL.isPrefixOf (splitHostname n).2 = true
    · rw [if_pos hp] at hstrip ⊢
      exact congrArg Except.ok hstrip.symm
    · rw [if_neg hp] at hstrip ⊢
      exact congrArg Except.ok hstrip.symm
  · rw [if_neg hnd]
    unfold fullNameOf
    rw [← P5 hnd]

theorem validateName_ok {n : List Char} (hv : validateHex n = false) :
    validateName n = Except.ok () := by
  unfold validateName
  rw [if_neg (fun hp => by rw [hv] at hp; cases hp)]

theorem withRemoteName_eval {s n : List Char} (hn : normalize s = Except.ok n)
    (hv : validateHex n = false) (hg : validBaseName n = true) :
    withRemoteName s = Except.ok n := by
  unfold withRemoteName
  rw [hn]
  dsimp only
  rw [validateName_ok hv]
  dsimp only
  rw [if_pos hg]

theorem withRemoteName_ok_parts {x n : List Char} (hx : withRemoteName x = Except.ok n) :
    normalize x = Except.ok n ∧ validateHex n = false ∧ validBaseName n = true := by
  unfold withRemoteName at hx
  cases hnorm : normalize x with
  | error e =>
    rw [hnorm] at hx
    cases hx
  | ok m =>
    rw [hnorm] at hx
    dsimp only at hx
    cases hvx : validateHex m with
    | true =>
      unfold validateName at hx
      rw [if_pos hvx] at hx
      cases hx
    | false =>
      rw [validateName_ok hvx] at hx
      dsimp only at hx
      by_cases hg : validBaseName m = true
      · rw [if_pos hg] at hx
        injection hx with hmn
        subst hmn
        exact ⟨rfl, hvx, hg⟩
      · rw [if_neg hg] at hx
        cases hx

theorem withRemoteName_hex_error {s h : List Char} (hn : normalize s = Except.ok h)
    (hv : validateHex h = true) :
    withRemoteName s = Except.error (RefError.ambiguousHex h) := by
  unfold withRemoteName
  rw [hn]
  dsimp only
  unfold validateName
  rw [if_pos hv]

theorem splitHostname_eq_spec_aux (n : List Char) :
    splitHostname n = splitHostnameSpec n := by
  by_cases hC : n.contains '/' = false ∨
      (containsAny (n.takeWhile (fun c => c != '/')) ['.', ':'] = false ∧
        n.takeWhile (fun c => c != '/') ≠ "localhost".toList)
  · have hng : ¬(n.contains '/' = true ∧
        (containsAny (n.takeWhile (fun c => c != '/')) ['.', ':'] = true ∨
          n.takeWhile (fun c => c != '/') = "localhost".toList)) := by
      rintro ⟨hct, hor⟩
      rcases hC with hcf | ⟨hany, hloc⟩
      · rw [hct] at hcf
        cases hcf
      · rcases hor with hat | hlt
        · rw [hat] at hany
          cases hany
        · exact hloc hlt
    simp only [splitHostname, splitHostnameSpec]
    rw [if_pos hC, if_neg hng]
  · have hC' := hC
    push_neg at hC'
    obtain ⟨hC1, hC2⟩ := hC'
    have hct : n.contains '/' = true := by
      cases hcy : n.contains '/'
      · exact absurd hcy hC1
      · rfl
    have hor : containsAny (n.takeWhile (fun c => c != '/')) ['.', ':'] = true ∨
        n.takeWhile (fun c => c != '/') = "localhost".toList := by
      by_cases hany : containsAny (n.takeWhile (fun c => c != '/')) ['.', ':'] = true
      · exact Or.inl hany
      · have hanyf : containsAny (n.takeWhile (fun c => c != '/')) ['.', ':'] = false := by
          cases ha : containsAny (n.takeWhile (fun c => c != '/')) ['.', ':']
          · rfl
          · exact absurd ha hany
        exact Or.inr (hC2 hanyf)
    have hpos : n.contains '/' = true ∧
        (containsAny (n.takeWhile (fun c => c != '/')) ['.', ':'] = true ∨
          n.takeWhile (fun c => c != '/') = "localhost".toList) := ⟨hct, hor⟩
    simp only [splitHostname, splitHostnameSpec]
    rw [if_neg hC, if_pos hpos]

theorem splitDigestSuffix_append {nm dg : List Char} (h : ('@' : Char) ∉ nm) :
    splitDigestSuffix (nm ++ '@' :: dg) = (nm, some dg) := by
  unfold splitDigestSuffix
  rw [if_pos (contains_append_pivot '@' nm dg), takeWhile_ne_append h,
    dropWhile_ne_append h]
  simp only [List.tail_cons]

theorem splitTagSuffix_append {nm tg : List Char} (h1 : (':' : Char) ∉ tg)
    (h2 : ('/' : Char) ∉ tg) :
    splitTagSuffix (nm ++ ':' :: tg) = (nm, some tg) := by
  have hrev : (nm ++ ':' :: tg).reverse = tg.reverse ++ ':' :: nm.reverse := by
    rw [List.reverse_append, List.reverse_cons]
    simp
  have h1r : (':' : Char) ∉ tg.reverse := fun hm => h1 (List.mem_reverse.mp hm)
  have h2r : tg.reverse.contains '/' = false :=
    contains_false_iff.mpr (fun hm => h2 (List.mem_reverse.mp hm))
  simp only [splitTagSuffix]
  rw [hrev, takeWhile_ne_append h1r, dropWhile_ne_append h1r]
  rw [if_pos ?hcond]
  case hcond =>
    rw [contains_append_pivot ':' nm tg, h2r]
    rfl
  simp only [List.tail_cons, List.reverse_reverse]

/-! ### Claim theorems -/

/-- C2: for every input name, `splitHostname` treats the substring before the
first `/` as an explicit hostname exactly when it contains `.` or `:` or
equals `"localhost"` (otherwise the hostname is the default `docker.io` and
the whole input is the repository path); a hostname equal to the legacy alias
`index.docker.io` is replaced by `docker.io`; and when the hostname is
`docker.io` and the repository path contains no further `/`, the prefix
`library/` is prepended.  Proved as refinement: the implementation coincides
with the specification transcription `splitHostnameSpec` on every input. -/
theorem c2_splitHostname_matches_spec (n : List Char) :
    splitHostname n = splitHostnameSpec n :=
  splitHostname_eq_spec_aux n

/-- C3: for every input name, `normalize` runs `splitHostname` and then
rejects a repository path that is not already lowercase, strips the default
namespace `library/` on the canonical default host, and returns the original
input unchanged on any other host.  Proved as refinement: the implementation
coincides with the specification transcription `normalizeSpec` on every
input. -/
theorem c3_normalize_matches_spec (n : List Char) :
    normalize n = normalizeSpec n := by
  simp only [normalize, normalizeSpec]
  rw [splitHostname_eq_spec_aux n]

/-- C4 counterexample: `normalize` is not idempotent on every input on which
it succeeds.  On `x = "library/library/z"` normalize succeeds with
`"library/z"`, but normalizing that result again yields `"z"`, so
`normalize (normalize x) ≠ normalize x`. -/
theorem c4_counterexample :
    normalize ("library/library/z".toList) = Except.ok ("library/z".toList) ∧
    normalize ("library/z".toList) = Except.ok ("z".toList) ∧
    normalize ("library/z".toList) ≠ Except.ok ("library/z".toList) := by
  decide

/-- C4 (amended): `normalize` is idempotent on every successfully normalized
result that does not itself again begin with the default namespace prefix
`library/` and whose first `/`-component is not a spelling of the default
host (`docker.io` / `index.docker.io`): if `normalize x = ok y` for such a
`y`, then `normalize y = ok y`, i.e. `normalize (normalize x) = normalize x`. -/
theorem c4_amended_idempotent (x y : List Char)
    (hx : normalize x = Except.ok y)
    (hA : DefaultRepoPrefixL.isPrefixOf y = false)
    (hB : y.contains '/' = true →
      (y.takeWhile (fun c => c != '/') ≠ DefaultHostname ∧
       y.takeWhile (fun c => c != '/') ≠ LegacyDefaultHostname)) :
    normalize y = Except.ok y := by
  obtain ⟨hlow, hcases⟩ := normalize_ok_cases hx
  rcases hcases with ⟨hd, hy⟩ | ⟨hnd, hy⟩
  · have hly : toLowerL y = y := by
      rw [hy]
      unfold stripLibrary
      by_cases hp : DefaultRepoPrefixL.isPrefixOf (splitHostname x).2 = true
      · rw [if_pos hp]
        exact toLowerL_drop _ hlow
      · rw [if_neg hp]
        exact hlow
    exact normalize_fixed_of_lower hly hA hB
  · subst hy
    exact hx

/-- C4 witness: the amended idempotence theorem applied at the concrete input
`"docker.io/fooo/bar"`, whose normalization `"fooo/bar"` is stable. -/
theorem c4_amended_witness :
    normalize ("docker.io/fooo/bar".toList) = Except.ok ("fooo/bar".toList) ∧
    normalize ("fooo/bar".toList) = Except.ok ("fooo/bar".toList) :=
  ⟨by decide,
   c4_amended_idempotent ("docker.io/fooo/bar".toList) ("fooo/bar".toList)
     (by decide) (by decide) (by decide)⟩

/-- C10: `normalize` applied to the empty string succeeds and returns the
empty string: `splitHostname` maps `""` to the default hostname with remote
name `"library/"`, `normalize` strips that prefix back off, and
`validateName` accepts `""`; neither `normalize` nor `validateName` in this
file enforces the non-empty-name invariant. -/
theorem c10_empty_name_accepted :
    splitHostname [] = (DefaultHostname, DefaultRepoPrefixL) ∧
    normalize [] = Except.ok [] ∧
    validateName [] = Except.ok () := by
  decide

/-- C1 counterexample: the three spellings do not always collapse.
`R = "docker.io/foo"` is a genuine remote name on the canonical default host
(it is `remoteNameOf` of the constructible reference parsed from
`"docker.io/docker.io/docker.io/foo"`, whose `hostnameOf` is the default),
its minimal spelling is `R` itself (no `library/` prefix to strip), yet the
minimal spelling produces a reference with `Name() = "foo"` while the
fully-qualified spelling `docker.io/R` produces `Name() = "docker.io/foo"`. -/
theorem c1_counterexample :
    withRemoteName ("docker.io/docker.io/docker.io/foo".toList) =
      Except.ok ("docker.io/docker.io/foo".toList) ∧
    hostnameOf ("docker.io/docker.io/foo".toList) = DefaultHostname ∧
    remoteNameOf ("docker.io/docker.io/foo".toList) = "docker.io/foo".toList ∧
    toLowerL ("docker.io/foo".toList) = "docker.io/foo".toList ∧
    ("docker.io/foo".toList).contains '/' = true ∧
    stripLibrary ("docker.io/foo".toList) = "docker.io/foo".toList ∧
    withRemoteName ("docker.io/foo".toList) = Except.ok ("foo".toList) ∧
    withRemoteName (DefaultHostname ++ '/' :: "docker.io/foo".toList) =
      Except.ok ("docker.io/foo".toList) ∧
    ("foo".toList : List Char) ≠ "docker.io/foo".toList := by
  decide

/-- C1 (amended): for a logical artifact with remote name `R` on the
canonical default host whose minimal spelling `stripLibrary R` is itself
already normalized (a fixed point of `normalize`) and constructible (not a
bare 64-hex string, grammar-valid), the three spellings — minimal,
fully-qualified `docker.io/R`, and legacy-alias `index.docker.io/R` — all
produce via `withRemoteName` a reference with the same stored name
`stripLibrary R`; since `Name()`, `FullName()`, `Hostname()` and
`RemoteName()` are the functions `id`, `fullNameOf`, `hostnameOf` and
`remoteNameOf` of the stored name, all four accessors agree across the three
spellings. -/
theorem c1_amended_spellings_collapse (R : List Char)
    (h1 : R.contains '/' = true)
    (h2 : toLowerL R = R)
    (h3 : normalize (stripLibrary R) = Except.ok (stripLibrary R))
    (h4 : validateHex (stripLibrary R) = false)
    (h5 : validBaseName (stripLibrary R) = true) :
    withRemoteName (stripLibrary R) = Except.ok (stripLibrary R) ∧
    withRemoteName (DefaultHostname ++ '/' :: R) = Except.ok (stripLibrary R) ∧
    withRemoteName (LegacyDefaultHostname ++ '/' :: R) = Except.ok (stripLibrary R) :=
  ⟨withRemoteName_eval h3 h4 h5,
   withRemoteName_eval (normalize_default_fq h1 h2) h4 h5,
   withRemoteName_eval (normalize_legacy_fq h1 h2) h4 h5⟩

/-- C1 witness: the amended equivalence applied at the remote name
`R = "library/ubuntu"`, whose minimal spelling is `"ubuntu"`. -/
theorem c1_amended_witness :
    normalize (stripLibrary ("library/ubuntu".toList)) =
      Except.ok (stripLibrary ("library/ubuntu".toList)) ∧
    (withRemoteName (stripLibrary ("library/ubuntu".toList)) =
      Except.ok (stripLibrary ("library/ubuntu".toList)) ∧
     withRemoteName (DefaultHostname ++ '/' :: "library/ubuntu".toList) =
      Except.ok (stripLibrary ("library/ubuntu".toList)) ∧
     withRemoteName (LegacyDefaultHostname ++ '/' :: "library/ubuntu".toList) =
      Except.ok (stripLibrary ("library/ubuntu".toList))) :=
  ⟨by decide,
   c1_amended_spellings_collapse ("library/ubuntu".toList)
     (by decide) (by decide) (by decide) (by decide) (by decide)⟩

/-- C6: a 64-character lowercase-hexadecimal string `h` is never a legal
name: constructing a reference whose stored name would be `h` fails with the
documented ambiguous-hex error kind — both for the bare spelling `h` itself
and for every namespaced spelling `s` that normalizes to `h` (such as
`docker.io/h`, `library/h`, or `index.docker.io/library/h`). -/
theorem c6_hex_name_rejected (h : List Char) (hh : validateHex h = true) :
    withRemoteName h = Except.error (RefError.ambiguousHex h) ∧
    ∀ s, normalize s = Except.ok h →
      withRemoteName s = Except.error (RefError.ambiguousHex h) := by
  have hchars : ∀ c ∈ h, isHexChar c = true := by
    simp only [validateHex, Bool.and_eq_true, List.all_eq_true] at hh
    exact hh.2
  have hns : h.contains '/' = false := by
    rw [contains_false_iff]
    intro hm
    exact (isHexChar_facts (hchars _ hm)).2.1 rfl
  have hlow : toLowerL h = h := by
    rw [toLowerL_eq_self_iff]
    intro c hc
    exact (isHexChar_facts (hchars _ hc)).1
  exact ⟨withRemoteName_hex_error (normalize_no_slash hns hlow) hh,
    fun s hs => withRemoteName_hex_error hs hh⟩

/-- C6 witness: the hex rejection applied at the 64-hex string from the
repository's tests, bare and namespaced under the default host. -/
theorem c6_witness :
    validateHex
      ("1a3f5e7d9c1b3a5f7e9d1c3b5a7f9e1d3c5b7a9f1e3d5d7c9b1a3f5e7d9c1b3a".toList) = true ∧
    withRemoteName
      ("1a3f5e7d9c1b3a5f7e9d1c3b5a7f9e1d3c5b7a9f1e3d5d7c9b1a3f5e7d9c1b3a".toList) =
      Except.error (RefError.ambiguousHex
        ("1a3f5e7d9c1b3a5f7e9d1c3b5a7f9e1d3c5b7a9f1e3d5d7c9b1a3f5e7d9c1b3a".toList)) ∧
    withRemoteName
      ("docker.io/1a3f5e7d9c1b3a5f7e9d1c3b5a7f9e1d3c5b7a9f1e3d5d7c9b1a3f5e7d9c1b3a".toList) =
      Except.error (RefError.ambiguousHex
        ("1a3f5e7d9c1b3a5f7e9d1c3b5a7f9e1d3c5b7a9f1e3d5d7c9b1a3f5e7d9c1b3a".toList)) :=
  ⟨by decide,
   (c6_hex_name_rejected
     ("1a3f5e7d9c1b3a5f7e9d1c3b5a7f9e1d3c5b7a9f1e3d5d7c9b1a3f5e7d9c1b3a".toList)
     (by decide)).1,
   (c6_hex_name_rejected
     ("1a3f5e7d9c1b3a5f7e9d1c3b5a7f9e1d3c5b7a9f1e3d5d7c9b1a3f5e7d9c1b3a".toList)
     (by decide)).2 _ (by decide)⟩

/-- C7 counterexample: parsing does not always round-trip through the
fully-qualified form.  `withRemoteName "library/library/a/b"` succeeds with
stored name `"library/a/b"` whose `FullName()` is
`"docker.io/library/a/b"`; re-parsing that FullName succeeds but yields
stored name `"a/b"` whose `FullName()` is `"docker.io/a/b"` — a different
FullName. -/
theorem c7_counterexample :
    withRemoteName ("library/library/a/b".toList) =
      Except.ok ("library/a/b".toList) ∧
    fullNameOf ("library/a/b".toList) = "docker.io/library/a/b".toList ∧
    withRemoteName ("docker.io/library/a/b".toList) = Except.ok ("a/b".toList) ∧
    fullNameOf ("a/b".toList) = "docker.io/a/b".toList ∧
    ("docker.io/a/b".toList : List Char) ≠ "docker.io/library/a/b".toList := by
  decide

/-- C7 (amended): for every input `x` on which `withRemoteName` succeeds
with a stored name `n` that is itself already normalized (a fixed point of
`normalize`), re-parsing the reference's `FullName()` succeeds and returns
the very same stored name `n` — hence the same `FullName()`, which is always
`hostname ++ "/" ++ remoteName` regardless of the input spelling. -/
theorem c7_amended_roundtrip (x n : List Char)
    (hx : withRemoteName x = Except.ok n)
    (hfix : normalize n = Except.ok n) :
    withRemoteName (fullNameOf n) = Except.ok n := by
  obtain ⟨-, hv, hg⟩ := withRemoteName_ok_parts hx
  exact withRemoteName_eval (normalize_fullName hfix) hv hg

/-- C7 witness: the amended round-trip applied at
`x = "docker.io/library/ubuntu"`, whose stored name `"ubuntu"` is
normalize-stable. -/
theorem c7_amended_witness :
    withRemoteName ("docker.io/library/ubuntu".toList) =
      Except.ok ("ubuntu".toList) ∧
    withRemoteName (fullNameOf ("ubuntu".toList)) = Except.ok ("ubuntu".toList) :=
  ⟨by decide,
   c7_amended_roundtrip ("docker.io/library/ubuntu".toList) ("ubuntu".toList)
     (by decide) (by decide)⟩

/-- C8 counterexample: when the underlying name parse fails, the error is
not propagated unchanged.  For the input `"-docker"`, `parseNamed` fails
with the grammar error kind carrying the name, but `ParseRemoteNamed`
returns the generic invalid-format error carrying the whole input — a
different error value. -/
theorem c8_counterexample :
    parseNamed ("-docker".toList) =
      Except.error (RefError.invalidName ("-docker".toList)) ∧
    parseRemoteNamed ("-docker".toList) =
      Except.error (RefError.invalidFormat ("-docker".toList)) ∧
    RefError.invalidName ("-docker".toList) ≠
      RefError.invalidFormat ("-docker".toList) := by
  decide

/-- C8 (amended): when `ParseRemoteNamed` fails because the underlying
`ParseNamed` fails, the underlying error is discarded and replaced by the
generic "not a valid repository/tag" error naming only the input string,
whatever the underlying reason was. -/
theorem c8_amended_generic_error (s : List Char) (e : RefError)
    (h : parseNamed s = Except.error e) :
    parseRemoteNamed s = Except.error (RefError.invalidFormat s) := by
  unfold parseRemoteNamed
  rw [h]

/-- C8 witness: the generic replacement at the concrete failing input
`"-docker"`. -/
theorem c8_amended_witness :
    parseNamed ("-docker/docker".toList) =
      Except.error (RefError.invalidName ("-docker/docker".toList)) ∧
    parseRemoteNamed ("-docker/docker".toList) =
      Except.error (RefError.invalidFormat ("-docker/docker".toList)) :=
  ⟨by decide,
   c8_amended_generic_error ("-docker/docker".toList)
     (RefError.invalidName ("-docker/docker".toList)) (by decide)⟩

/-- C9: normalize's lowercase rejection applies only to the repository path
obtained after hostname splitting: for every input whose first
`/`-separated component is an explicit hostname (contains `.` or `:` or is
`localhost`) containing an uppercase letter, and whose repository path is
lowercase, `normalize` succeeds and returns the input unchanged with the
uppercase hostname intact. -/
theorem c9_uppercase_hostname_accepted (n : List Char)
    (h1 : n.contains '/' = true)
    (h2 : containsAny (n.takeWhile (fun c => c != '/')) ['.', ':'] = true ∨
      n.takeWhile (fun c => c != '/') = "localhost".toList)
    (h3 : toLowerL ((n.dropWhile (fun c => c != '/')).tail) =
      (n.dropWhile (fun c => c != '/')).tail)
    (h4 : ∃ c ∈ n.takeWhile (fun c => c != '/'), isUpperAlphaChar c = true) :
    normalize n = Except.ok n := by
  obtain ⟨c0, hc0mem, hc0up⟩ := h4
  have hlegfacts : ∀ c ∈ LegacyDefaultHostname, isUpperAlphaChar c = false := by decide
  have hdffacts : ∀ c ∈ DefaultHostname, isUpperAlphaChar c = false := by decide
  have hne_l : n.takeWhile (fun c => c != '/') ≠ LegacyDefaultHostname := by
    intro he
    rw [he] at hc0mem
    rw [hlegfacts c0 hc0mem] at hc0up
    cases hc0up
  have hne_d : n.takeWhile (fun c => c != '/') ≠ DefaultHostname := by
    intro he
    rw [he] at hc0mem
    rw [hdffacts c0 hc0mem] at hc0up
    cases hc0up
  have hrec := splitSlash_reconstruct h1
  have hsplit : splitHostname n =
      (n.takeWhile (fun c => c != '/'), (n.dropWhile (fun c => c != '/')).tail) := by
    have := splitHostname_hostlike (r := (n.dropWhile (fun c => c != '/')).tail)
      (takeWhile_ne_not_mem _ _) h2 hne_l (fun hd => absurd hd hne_d)
    rw [← hrec] at this
    exact this
  simp only [normalize]
  rw [hsplit]
  dsimp only
  rw [if_neg (fun hne => hne h3), if_neg hne_d]

/-- C9 witness: `"EXAMPLE.COM/foo"` is accepted by normalize and returned
unchanged. -/
theorem c9_witness :
    ("EXAMPLE.COM/foo".toList).contains '/' = true ∧
    normalize ("EXAMPLE.COM/foo".toList) = Except.ok ("EXAMPLE.COM/foo".toList) :=
  ⟨by decide,
   c9_uppercase_hostname_accepted ("EXAMPLE.COM/foo".toList)
     (by decide) (by decide) (by decide) (by decide)⟩

/-- C5: for every input string of the form `name:tag@digest` (a `:tag`
suffix and an `@digest` suffix), with a grammar-valid name that
`withRemoteName` accepts, a well-formed tag suffix and a valid digest,
`ParseRemoteNamed` returns a Canonical reference whose `Digest()` equals the
digest suffix and which does not implement the Tagged capability: the digest
wins and the tag is discarded entirely from the resulting value. -/
theorem c5_digest_wins (nm tg dg n : List Char)
    (h1 : ('@' : Char) ∉ nm)
    (h2 : ('@' : Char) ∉ tg)
    (h3 : (':' : Char) ∉ tg)
    (h4 : ('/' : Char) ∉ tg)
    (h5 : validBaseName nm = true)
    (h6 : validDigest dg = true)
    (h7 : withRemoteName nm = Except.ok n) :
    parseRemoteNamed (nm ++ ':' :: tg ++ '@' :: dg) =
      Except.ok (RemoteRef.canonical n dg) ∧
    (RemoteRef.canonical n dg).isTagged = false ∧
    (RemoteRef.canonical n dg).digestOf = some dg := by
  have hsplit1 : splitDigestSuffix ((nm ++ ':' :: tg) ++ '@' :: dg) =
      (nm ++ ':' :: tg, some dg) := by
    apply splitDigestSuffix_append
    intro hm
    rcases List.mem_append.mp hm with hm1 | hm2
    · exact h1 hm1
    · rcases List.mem_cons.mp hm2 with he | hm3
      · exact absurd he (by decide)
      · exact h2 hm3
  have hsplit2 : splitTagSuffix (nm ++ ':' :: tg) = (nm, some tg) :=
    splitTagSuffix_append h3 h4
  have hassoc : nm ++ ':' :: tg ++ '@' :: dg = (nm ++ ':' :: tg) ++ '@' :: dg := by
    simp
  have hpn : parseNamed (nm ++ ':' :: tg ++ '@' :: dg) =
      Except.ok (NamedRef.canonical nm dg) := by
    unfold parseNamed
    rw [hassoc, hsplit1]
    dsimp only
    rw [hsplit2]
    dsimp only
    rw [if_neg (fun hf => by rw [h5] at hf; cases hf), if_pos h6]
  unfold parseRemoteNamed
  rw [hpn]
  dsimp only [NamedRef.name]
  rw [h7]
  dsimp only
  unfold withRemoteDigest
  rw [if_pos h6]
  exact ⟨rfl, rfl, rfl⟩

/-- C5 witness: the tag-and-digest input from the repository's tests,
`busybox:latest@sha256:86e0…`, parses to a Canonical (not Tagged) reference
carrying exactly the digest suffix. -/
theorem c5_witness :
    validDigest
      ("sha256:86e0e091d0da6bde2456dbb48306f3956bbeb2eae1b5b9a43045843f69fe4aaa".toList) =
      true ∧
    (parseRemoteNamed ("busybox".toList ++ ':' :: "latest".toList ++ '@' ::
        "sha256:86e0e091d0da6bde2456dbb48306f3956bbeb2eae1b5b9a43045843f69fe4aaa".toList) =
      Except.ok (RemoteRef.canonical ("busybox".toList)
        ("sha256:86e0e091d0da6bde2456dbb48306f3956bbeb2eae1b5b9a43045843f69fe4aaa".toList)) ∧
     (RemoteRef.canonical ("busybox".toList)
        ("sha256:86e0e091d0da6bde2456dbb48306f3956bbeb2eae1b5b9a43045843f69fe4aaa".toList)).isTagged
       = false ∧
     (RemoteRef.canonical ("busybox".toList)
        ("sha256:86e0e091d0da6bde2456dbb48306f3956bbeb2eae1b5b9a43045843f69fe4aaa".toList)).digestOf
       = some
        ("sha256:86e0e091d0da6bde2456dbb48306f3956bbeb2eae1b5b9a43045843f69fe4aaa".toList)) :=
  ⟨by decide,
   c5_digest_wins ("busybox".toList) ("latest".toList)
     ("sha256:86e0e091d0da6bde2456dbb48306f3956bbeb2eae1b5b9a43045843f69fe4aaa".toList)
     ("busybox".toList)
     (by decide) (by decide) (by decide) (by decide) (by decide) (by decide) (by decide)⟩

end Naming
